import Mathlib

/-!
Verification of the pizza-order scheduling engine in this repository
(primary revision: the single-file script whose scheduler state lives in the
globals `allPreps`, `orders` and `ordersSize`).

Modelling conventions for the shallow embedding:

* JavaScript numbers appearing here are all small non-negative integers
  (stage codes, ids, millisecond durations, topping counts), so they are
  embedded as `Nat`.  `Math.ceil(x / 2)` on such a value is embedded by
  `mathCeilHalf`.
* A function that `throw`s is embedded with an `Option` result (`none` on the
  throwing branch), or, inside the step functions, by leaving the state
  unchanged on a branch that the reachability invariant proves impossible.
* The mutable object graph is embedded as an explicit scheduler state
  (`SchedState`).  `Order` objects are addressed by their position in
  `SchedState.orders` (orders are created once, with ids `1..n` assigned in
  creation sequence and never mutated, so the order with id `k` is exactly the
  entry at position `k - 1`; the registry buckets therefore store positions).
  Prep stages (workers) are addressed by their position in `SchedState.preps`.
* The event-emitter wiring (`FREEORDER` / `FREESTAGE` listeners) is embedded
  by direct calls: emitting an event runs the attached listener.
* `console.log` side effects carry no scheduler state except the global
  completion message, whose emission count is tracked in `doneLogCount`
  so that the completion-signal claims can be stated.
* `Date.now()` timestamps (`startTime` fields, elapsed-time reporting) are
  log-output only and are not part of the model.
-/

namespace PizzaSched

-- Stage codes, from the source's `StageTypes` object.
namespace StageTypes

def DOUGHCHEF : Nat := 1
def TOPPINGCHEF : Nat := 2
def OVEN : Nat := 3
def WAITER : Nat := 4
def DONE : Nat := 5

end StageTypes

/-- Configuration record of one prep stage (`class PrepConfig`). -/
structure PrepConfig where
  stageType : Nat
  msToPrep : Nat
  deriving DecidableEq, Repr

/-- The `PrepConfig` constructor: it stores the stage code and converts the
given duration from seconds to milliseconds (`this.msToPrep = secondsToPrep * 1000`). -/
def mkPrepConfig (stageType secondsToPrep : Nat) : PrepConfig :=
  { stageType := stageType, msToPrep := secondsToPrep * 1000 }

def doughChefConfig : PrepConfig := mkPrepConfig StageTypes.DOUGHCHEF 7

def toppingChefConfig : PrepConfig := mkPrepConfig StageTypes.TOPPINGCHEF 4

def ovenConfig : PrepConfig := mkPrepConfig StageTypes.OVEN 10

def waiterConfig : PrepConfig := mkPrepConfig StageTypes.WAITER 5

/-- The four concrete subclasses of `PrepStage`. -/
inductive PrepClass where
  | doughChef
  | toppingChef
  | oven
  | waiter
  deriving DecidableEq, Repr

/-- Static `getConfig` of each `PrepStage` subclass. -/
def getConfig : PrepClass → PrepConfig
  | .doughChef => doughChefConfig
  | .toppingChef => toppingChefConfig
  | .oven => ovenConfig
  | .waiter => waiterConfig

/-- One `Order` object: topping count fixed at creation, mutable stage and
readiness flag (`Processor.ready`, toggled by `disableReady`/`enableReady`). -/
structure Order where
  id : Nat
  toppingsCount : Nat
  stage : Nat
  ready : Bool
  deriving DecidableEq, Repr

/-- One `PrepStage` (worker) object: its subclass determines its stage. -/
structure Prep where
  id : Nat
  cls : PrepClass
  ready : Bool
  deriving DecidableEq, Repr

/-- `PrepStage.getStage()`: the stage code from the subclass configuration. -/
def Prep.getStage (p : Prep) : Nat := (getConfig p.cls).stageType

/-- Embedding of JavaScript `Math.ceil(x / 2)` for a non-negative integer `x`. -/
def mathCeilHalf (x : Nat) : Nat :=
  if x % 2 = 0 then x / 2 else x / 2 + 1

/-- `calculateProcessingTime`: the base class returns the configured
millisecond duration; the `ToppingChef` override returns
`Math.ceil(msToPrep * order.toppingsCount / 2)`. -/
def calculateProcessingTime : PrepClass → Order → Nat
  | .toppingChef, o => mathCeilHalf ((getConfig .toppingChef).msToPrep * o.toppingsCount)
  | c, _ => (getConfig c).msToPrep

/-- `PrepStage.getNextStage` of the primary revision: the linear successor on
stage codes; the `default` branch (`throw new Error('invalid stage')`) is
embedded as `none`. -/
def getNextStage (stageType : Nat) : Option Nat :=
  if stageType = StageTypes.DOUGHCHEF then some StageTypes.TOPPINGCHEF
  else if stageType = StageTypes.TOPPINGCHEF then some StageTypes.OVEN
  else if stageType = StageTypes.OVEN then some StageTypes.WAITER
  else if stageType = StageTypes.WAITER then some StageTypes.DONE
  else none

/-- The scheduler's mutable global state.  `orders` holds the order objects
(positions address them, see the header comment); `registry` embeds the
global `orders` buckets as a list of (bucket stage code, order position)
entries, with `bucketKeys` the keys created for that object at startup;
`timers` holds one (order position, prep position) entry per pending
`setTimeout` completion callback, i.e. per active pairing; `doneLogCount`
counts emissions of the global `Done processing orders` log line;
`ordersSize` embeds the global counter of created orders. -/
structure SchedState where
  orders : List Order
  preps : List Prep
  registry : List (Nat × Nat)
  bucketKeys : List Nat
  timers : List (Nat × Nat)
  doneLogCount : Nat
  ordersSize : Nat
  deriving DecidableEq, Repr

/-- Readiness of the order at position `oi` (`false` if there is none). -/
def orderReady (s : SchedState) (oi : Nat) : Bool :=
  match s.orders[oi]? with
  | some o => o.ready
  | none => false

/-- Readiness of the prep stage at position `pj` (`false` if there is none). -/
def prepReady (s : SchedState) (pj : Nat) : Bool :=
  match s.preps[pj]? with
  | some p => p.ready
  | none => false

/-- `attemptToProcess(order, prepStage)`: re-check eligibility (both ready and
at the same stage), compute the duration, reject a zero duration, otherwise
mark both busy and schedule the completion timer.  The JavaScript function has
no `return` after `await setTimeout(...)` (the `return true` belongs to the
timer callback), so it resolves to `undefined` — falsy — in the started case
as well; the returned `Bool` is therefore `false` on every path. -/
def attemptToProcess (s : SchedState) (oi pj : Nat) : Bool × SchedState :=
  match s.orders[oi]?, s.preps[pj]? with
  | some o, some p =>
    if o.ready && p.ready && (o.stage == p.getStage) then
      let time := calculateProcessingTime p.cls o
      if time == 0 then (false, s)
      else
        (false,
          { s with
            orders := s.orders.set oi { o with ready := false },
            preps := s.preps.set pj { p with ready := false },
            timers := s.timers ++ [(oi, pj)] })
    else (false, s)
  | _, _ => (false, s)

/-- `logIfDoneProcessingAll()`: emit the global completion log line when the
`DONE` bucket's key count equals `ordersSize`. -/
def logIfDoneProcessingAll (s : SchedState) : SchedState :=
  if s.registry.countP (fun e => e.1 == StageTypes.DONE) = s.ordersSize then
    { s with doneLogCount := s.doneLogCount + 1 }
  else s

/-- `moveOrder(order, priorStage)`: delete the order from the prior stage's
bucket, insert it into the bucket of its (already updated) current stage, then
run `logIfDoneProcessingAll`.  Inserting into a bucket that was never created
would throw in JavaScript; the embedding guards the insertion with
`bucketKeys` and the reachability invariant shows the guard always holds. -/
def moveOrder (s : SchedState) (oi priorStage : Nat) : SchedState :=
  match s.orders[oi]? with
  | none => s
  | some o =>
    logIfDoneProcessingAll
      { s with
        registry :=
          (s.registry.filter (fun e => !(e.1 == priorStage && e.2 == oi)))
            ++ (if o.stage ∈ s.bucketKeys then [(o.stage, oi)] else []) }

/-- The `Order.postProcess()` part of a completion callback for the pending
timer `t`: the timer is consumed, the order's stage is advanced via
`getNextStage`, the order is moved between registry buckets, and the order is
marked ready again.  The branch where `getNextStage` has no successor would
throw in JavaScript and is embedded as leaving everything but the timer
unchanged; the reachability invariant shows it is never taken.  The per-order
`logIfDoneProcessing` console line carries no scheduler state.  The resulting
state is exactly the state in which the emitted `FREEORDER` listener scan
begins; the finished prep stage is made ready only afterwards, by
`prepEnableStep`. -/
def fireOrderStep (s : SchedState) (t : Nat × Nat) : SchedState :=
  match s.orders[t.1]? with
  | none => { s with timers := s.timers.erase t }
  | some o =>
    match getNextStage o.stage with
    | none => { s with timers := s.timers.erase t }
    | some st =>
      moveOrder
        { s with
          timers := s.timers.erase t,
          orders := s.orders.set t.1 { o with stage := st, ready := true } }
        t.1 o.stage

/-- The `PrepStage.postProcess()` part of a completion callback: the prep
stage is marked ready again; the resulting state is the state in which the
emitted `FREESTAGE` listener scan begins. -/
def prepEnableStep (s : SchedState) (pj : Nat) : SchedState :=
  match s.preps[pj]? with
  | none => s
  | some p => { s with preps := s.preps.set pj { p with ready := true } }

/-- The scan loop shared by `freeStageListener` and `initOrderProcessing`:
try each order position in turn against the fixed prep stage, stopping early
if an attempt reports success. -/
def attemptOrdersLoop (pj : Nat) : SchedState → List Nat → SchedState
  | s, [] => s
  | s, oi :: rest =>
    let r := attemptToProcess s oi pj
    if r.1 then r.2 else attemptOrdersLoop pj r.2 rest

/-- The scan loop of `freeOrderListener`: try each prep position in turn
against the fixed order, stopping early if an attempt reports success. -/
def attemptPrepsLoop (oi : Nat) : SchedState → List Nat → SchedState
  | s, [] => s
  | s, pj :: rest =>
    let r := attemptToProcess s oi pj
    if r.1 then r.2 else attemptPrepsLoop oi r.2 rest

/-- Order positions sitting in the registry bucket of stage `st`. -/
def bucketAt (s : SchedState) (st : Nat) : List Nat :=
  (s.registry.filter (fun e => e.1 == st)).map (fun e => e.2)

/-- Positions of the prep stages of stage `st` (the pool `allPreps[st]`). -/
def prepIndicesAtStage (s : SchedState) (st : Nat) : List Nat :=
  (List.range s.preps.length).filter fun j =>
    match s.preps[j]? with
    | some p => p.getStage == st
    | none => false

/-- `freeStageListener({prepStage})`: scan the registry bucket of the freed
prep stage's stage, attempting to process each order there. -/
def freeStageListener (s : SchedState) (pj : Nat) : SchedState :=
  match s.preps[pj]? with
  | none => s
  | some p => attemptOrdersLoop pj s (bucketAt s p.getStage)

/-- `freeOrderListener({order})`: a no-op for a finished order, otherwise scan
the prep pool of the order's stage, attempting each prep stage. -/
def freeOrderListener (s : SchedState) (oi : Nat) : SchedState :=
  match s.orders[oi]? with
  | none => s
  | some o =>
    if o.stage == StageTypes.DONE then s
    else attemptPrepsLoop oi s (prepIndicesAtStage s o.stage)

/-- The worker pool built by `onScriptStart`: 2 dough chefs, 3 topping chefs,
1 oven, 2 waiters, ids counted from 1 within each class. -/
def initPreps : List Prep :=
  [ { id := 1, cls := .doughChef, ready := true },
    { id := 2, cls := .doughChef, ready := true },
    { id := 1, cls := .toppingChef, ready := true },
    { id := 2, cls := .toppingChef, ready := true },
    { id := 3, cls := .toppingChef, ready := true },
    { id := 1, cls := .oven, ready := true },
    { id := 1, cls := .waiter, ready := true },
    { id := 2, cls := .waiter, ready := true } ]

/-- The state after `onScriptStart()` and `initOrders(n)`: all five registry
buckets exist (including the `DONE` bucket), `n` orders with ids `1..n` and
arbitrary topping counts sit in the first stage's bucket, and no pairing is
active.  The topping counts are `Math.floor(Math.random() * 14)` in the
source; the model takes them as a parameter. -/
def initState (n : Nat) (tops : Nat → Nat) : SchedState :=
  { orders := (List.range n).map fun i =>
      { id := i + 1, toppingsCount := tops (i + 1),
        stage := StageTypes.DOUGHCHEF, ready := true },
    preps := initPreps,
    registry := (List.range n).map fun i => (StageTypes.DOUGHCHEF, i),
    bucketKeys :=
      [StageTypes.DOUGHCHEF, StageTypes.TOPPINGCHEF, StageTypes.OVEN,
        StageTypes.WAITER, StageTypes.DONE],
    timers := [],
    doneLogCount := 0,
    ordersSize := n }

/-- Atomic steps of the scheduler.  Every run of the script interleaves
exactly these: `attempt` covers every `attemptToProcess` call issued by the
listener scans and the initial seeding pass (each such call runs without a
suspension point between its eligibility check and its busy-marking);
`fireOrder` is the first half of a completion callback, up to and including
the emission of `FREEORDER`; `prepEnable` is its second half, which can only
concern a prep stage whose own timer has already been consumed. -/
inductive Step : SchedState → SchedState → Prop where
  | attempt (s : SchedState) (oi pj : Nat) : Step s (attemptToProcess s oi pj).2
  | fireOrder (s : SchedState) (t : Nat × Nat) (ht : t ∈ s.timers) :
      Step s (fireOrderStep s t)
  | prepEnable (s : SchedState) (pj : Nat) (hp : ∀ t ∈ s.timers, t.2 ≠ pj) :
      Step s (prepEnableStep s pj)

/-- A state the scheduler can reach from some startup configuration. -/
def Reachable (s : SchedState) : Prop :=
  ∃ n tops, Relation.ReflTransGen Step (initState n tops) s

/-- A topping-count assignment for the concrete one-order runs used below. -/
def tops3 : Nat → Nat := fun _ => 3

/-- Startup state of a run with a single order of 3 toppings. -/
def initEx : SchedState := initState 1 tops3

/-- The state of that run after the seeding scan pairs the order with the
first dough chef. -/
def pairedEx : SchedState := (attemptToProcess initEx 0 0).2

/-- A hand-built state with one free zero-topping order at the topping stage
and one free topping chef, exercising the zero-duration branch. -/
def zeroToppingsEx : SchedState :=
  { orders := [{ id := 1, toppingsCount := 0, stage := StageTypes.TOPPINGCHEF, ready := true }],
    preps := [{ id := 1, cls := PrepClass.toppingChef, ready := true }],
    registry := [(StageTypes.TOPPINGCHEF, 0)],
    bucketKeys :=
      [StageTypes.DOUGHCHEF, StageTypes.TOPPINGCHEF, StageTypes.OVEN,
        StageTypes.WAITER, StageTypes.DONE],
    timers := [],
    doneLogCount := 0,
    ordersSize := 1 }

theorem reachable_initEx : Reachable initEx :=
  ⟨1, tops3, Relation.ReflTransGen.refl⟩

theorem reachable_pairedEx : Reachable pairedEx :=
  ⟨1, tops3, Relation.ReflTransGen.single (Step.attempt initEx 0 0)⟩

theorem attemptToProcess_fst_false (s : SchedState) (oi pj : Nat) :
    (attemptToProcess s oi pj).1 = false := by
  unfold attemptToProcess
  split
  · dsimp only
    split
    · split <;> rfl
    · rfl
  · rfl

theorem attemptToProcess_order_busy {s : SchedState} {oi : Nat} (pj : Nat)
    (h : orderReady s oi = false) : attemptToProcess s oi pj = (false, s) := by
  unfold orderReady at h
  unfold attemptToProcess
  split
  · rename_i o p ho hp
    rw [ho] at h
    dsimp only at h
    simp [h]
  · rfl

theorem attemptToProcess_prep_busy {s : SchedState} {pj : Nat} (oi : Nat)
    (h : prepReady s pj = false) : attemptToProcess s oi pj = (false, s) := by
  unfold prepReady at h
  unfold attemptToProcess
  split
  · rename_i o p ho hp
    rw [hp] at h
    dsimp only at h
    simp [h]
  · rfl

/-- Each `attemptToProcess` call either leaves the state untouched or appends
exactly one timer for its own pair and marks both parties busy. -/
theorem attemptToProcess_cases (s : SchedState) (oi pj : Nat) :
    (attemptToProcess s oi pj).2 = s ∨
      ((attemptToProcess s oi pj).2.timers = s.timers ++ [(oi, pj)] ∧
        orderReady (attemptToProcess s oi pj).2 oi = false ∧
        prepReady (attemptToProcess s oi pj).2 pj = false) := by
  unfold attemptToProcess
  split
  · rename_i o p ho hp
    dsimp only
    split
    · split
      · left; rfl
      · right
        have hoi : oi < s.orders.length := (List.getElem?_eq_some.mp ho).1
        have hpj : pj < s.preps.length := (List.getElem?_eq_some.mp hp).1
        refine ⟨rfl, ?_, ?_⟩
        · unfold orderReady
          simp [List.getElem?_set_self, hoi]
        · unfold prepReady
          simp [List.getElem?_set_self, hpj]
    · left; rfl
  · left; rfl

theorem attemptOrdersLoop_busy {pj : Nat} :
    ∀ (l : List Nat) (s : SchedState), prepReady s pj = false →
      attemptOrdersLoop pj s l = s
  | [], _, _ => rfl
  | oi :: rest, s, h => by
    unfold attemptOrdersLoop
    rw [attemptToProcess_prep_busy oi h]
    exact attemptOrdersLoop_busy rest s h

theorem attemptPrepsLoop_busy {oi : Nat} :
    ∀ (l : List Nat) (s : SchedState), orderReady s oi = false →
      attemptPrepsLoop oi s l = s
  | [], _, _ => rfl
  | pj :: rest, s, h => by
    unfold attemptPrepsLoop
    rw [attemptToProcess_order_busy pj h]
    exact attemptPrepsLoop_busy rest s h

theorem attemptOrdersLoop_timers (pj : Nat) :
    ∀ (l : List Nat) (s : SchedState),
      (attemptOrdersLoop pj s l).timers = s.timers ∨
        ∃ oi, (attemptOrdersLoop pj s l).timers = s.timers ++ [(oi, pj)]
  | [], _ => Or.inl rfl
  | oi :: rest, s => by
    unfold attemptOrdersLoop
    rw [if_neg (by rw [attemptToProcess_fst_false]; exact Bool.false_ne_true)]
    rcases attemptToProcess_cases s oi pj with heq | ⟨ht, _, hbusy⟩
    · rw [heq]
      exact attemptOrdersLoop_timers pj rest s
    · rw [attemptOrdersLoop_busy rest _ hbusy]
      exact Or.inr ⟨oi, ht⟩

theorem attemptPrepsLoop_timers (oi : Nat) :
    ∀ (l : List Nat) (s : SchedState),
      (attemptPrepsLoop oi s l).timers = s.timers ∨
        ∃ pj, (attemptPrepsLoop oi s l).timers = s.timers ++ [(oi, pj)]
  | [], _ => Or.inl rfl
  | pj :: rest, s => by
    unfold attemptPrepsLoop
    rw [if_neg (by rw [attemptToProcess_fst_false]; exact Bool.false_ne_true)]
    rcases attemptToProcess_cases s oi pj with heq | ⟨ht, hbusy, _⟩
    · rw [heq]
      exact attemptPrepsLoop_timers oi rest s
    · rw [attemptPrepsLoop_busy rest _ hbusy]
      exact Or.inr ⟨pj, ht⟩

/-- Full characterisation of one `attemptToProcess` call: either it is a
no-op on the state, or the pair was eligible with a non-zero duration and the
call marks exactly this order and this prep stage busy and appends exactly
this pair's timer. -/
theorem attemptToProcess_spec (s : SchedState) (oi pj : Nat) :
    (attemptToProcess s oi pj).2 = s ∨
      ∃ o p, s.orders[oi]? = some o ∧ s.preps[pj]? = some p ∧
        o.ready = true ∧ p.ready = true ∧ o.stage = p.getStage ∧
        calculateProcessingTime p.cls o ≠ 0 ∧
        (attemptToProcess s oi pj).2 =
          { s with
            orders := s.orders.set oi { o with ready := false },
            preps := s.preps.set pj { p with ready := false },
            timers := s.timers ++ [(oi, pj)] } := by
  unfold attemptToProcess
  split
  · rename_i o p ho hp
    dsimp only
    split
    · rename_i hc
      split
      · left; rfl
      · rename_i ht
        right
        simp only [Bool.and_eq_true, beq_iff_eq] at hc
        simp only [beq_iff_eq] at ht
        exact ⟨o, p, ho, hp, hc.1.1, hc.1.2, hc.2, ht, rfl⟩
    · left; rfl
  · left; rfl

/-- Occurrence count of a value in a list, defined through a fixed
decidable-equality predicate so that every counting statement below lives in
one instance. -/
def countVal {α : Type} [DecidableEq α] (x : α) (l : List α) : Nat :=
  l.countP fun e => decide (e = x)

theorem countVal_eq_zero {α : Type} [DecidableEq α] {x : α} {l : List α} :
    countVal x l = 0 ↔ x ∉ l := by
  unfold countVal
  rw [List.countP_eq_zero]
  constructor
  · intro h hx
    exact absurd (decide_eq_true rfl) (h x hx)
  · intro h a ha hd
    rw [decide_eq_true_eq] at hd
    exact h (hd ▸ ha)

theorem countVal_pos {α : Type} [DecidableEq α] {x : α} {l : List α} :
    0 < countVal x l ↔ x ∈ l := by
  unfold countVal
  rw [List.countP_pos_iff]
  constructor
  · rintro ⟨a, ha, hd⟩
    rw [decide_eq_true_eq] at hd
    exact hd ▸ ha
  · intro h
    exact ⟨x, h, decide_eq_true rfl⟩

/-- Count of an element of a duplicate-free list it belongs to. -/
theorem countVal_eq_one_of_nodup_mem {α : Type} [DecidableEq α]
    {l : List α} {x : α} (hn : l.Nodup) (hx : x ∈ l) : countVal x l = 1 := by
  induction l with
  | nil => cases hx
  | cons b l ih =>
    unfold countVal at *
    rw [List.countP_cons]
    rcases List.mem_cons.mp hx with rfl | hmem
    · have h0 : List.countP (fun e => decide (e = x)) l = 0 := by
        rw [List.countP_eq_zero]
        intro a ha hd
        rw [decide_eq_true_eq] at hd
        exact (List.nodup_cons.mp hn).1 (hd ▸ ha)
      rw [h0]
      simp
    · rw [ih (List.nodup_cons.mp hn).2 hmem]
      have hbx : ¬b = x := by
        intro h
        exact (List.nodup_cons.mp hn).1 (by rw [h]; exact hmem)
      simp [hbx]

theorem countVal_append {α : Type} [DecidableEq α] (x : α) (l m : List α) :
    countVal x (l ++ m) = countVal x l + countVal x m := by
  simp [countVal]

theorem countVal_filter {α : Type} [DecidableEq α] (x : α) (q : α → Bool)
    (l : List α) :
    countVal x (l.filter q) = if q x then countVal x l else 0 := by
  unfold countVal
  rw [List.countP_filter]
  by_cases hq : q x = true
  · rw [if_pos hq]
    apply List.countP_congr
    intro e he
    simp only [Bool.and_eq_true, decide_eq_true_eq]
    constructor
    · exact And.left
    · intro h
      exact ⟨h, by rw [h]; exact hq⟩
  · rw [if_neg hq]
    rw [List.countP_eq_zero]
    intro a ha
    simp only [Bool.and_eq_true, decide_eq_true_eq, not_and]
    intro h
    rw [h]
    exact fun hc => hq hc

/-- Core's `count` under the decidable-equality instance agrees with
`countVal`. -/
theorem count_eq_countVal {α : Type} [DecidableEq α] (x : α) (l : List α) :
    @List.count α instBEqOfDecidableEq x l = countVal x l := rfl

/-- The reachability invariant of the scheduler state. -/
structure Inv (s : SchedState) : Prop where
  sizeEq : s.ordersSize = s.orders.length
  keysEq : s.bucketKeys =
    [StageTypes.DOUGHCHEF, StageTypes.TOPPINGCHEF, StageTypes.OVEN,
      StageTypes.WAITER, StageTypes.DONE]
  regMem : ∀ e ∈ s.registry, ∃ o, s.orders[e.2]? = some o ∧ e.1 = o.stage
  regCount : ∀ (i : Nat) (o : Order), s.orders[i]? = some o →
    countVal (o.stage, i) s.registry = 1
  timersFst : (s.timers.map Prod.fst).Nodup
  timersSnd : (s.timers.map Prod.snd).Nodup
  timersMem : ∀ t ∈ s.timers, ∃ o p, s.orders[t.1]? = some o ∧
    s.preps[t.2]? = some p ∧ o.ready = false ∧ p.ready = false ∧
    o.stage = p.getStage
  logLe : s.doneLogCount ≤ 1
  logIff : s.doneLogCount = 1 ↔
    (0 < s.orders.length ∧
      ∀ (i : Nat) (o : Order), s.orders[i]? = some o →
        o.stage = StageTypes.DONE)

/-- The stage of the order at position `i` (`0` if there is none). -/
def stageAt (s : SchedState) (i : Nat) : Nat :=
  match s.orders[i]? with
  | some o => o.stage
  | none => 0

/-- The registry contents forced by the invariant: one entry per order
position, tagged with that order's current stage. -/
def regModel (s : SchedState) : List (Nat × Nat) :=
  (List.range s.orders.length).map fun i => (stageAt s i, i)

theorem regModel_nodup (s : SchedState) : (regModel s).Nodup := by
  refine List.Nodup.map ?_ (List.nodup_range _)
  intro a b h
  exact congrArg Prod.snd h

theorem mem_regModel {s : SchedState} {x : Nat × Nat} :
    x ∈ regModel s ↔ x.2 < s.orders.length ∧ x.1 = stageAt s x.2 := by
  unfold regModel
  rw [List.mem_map]
  constructor
  · rintro ⟨i, hi, rfl⟩
    exact ⟨List.mem_range.mp hi, rfl⟩
  · rintro ⟨h2, h1⟩
    refine ⟨x.2, List.mem_range.mpr h2, ?_⟩
    cases x
    simp_all

/-- Under the invariant's registry clauses the registry is a permutation of
its model. -/
theorem registry_perm {s : SchedState}
    (h1 : ∀ e ∈ s.registry, ∃ o, s.orders[e.2]? = some o ∧ e.1 = o.stage)
    (h2 : ∀ (i : Nat) (o : Order), s.orders[i]? = some o →
      countVal (o.stage, i) s.registry = 1) :
    s.registry.Perm (regModel s) := by
  rw [List.perm_iff_count]
  intro x
  rw [count_eq_countVal, count_eq_countVal]
  by_cases hx : x ∈ regModel s
  · rw [countVal_eq_one_of_nodup_mem (regModel_nodup s) hx]
    obtain ⟨hlt, hst⟩ := mem_regModel.mp hx
    obtain ⟨o, ho⟩ : ∃ o, s.orders[x.2]? = some o :=
      ⟨_, List.getElem?_eq_getElem hlt⟩
    have hsa : stageAt s x.2 = o.stage := by
      unfold stageAt
      rw [ho]
    have hxx : x = (o.stage, x.2) := by
      cases x
      simp_all
    rw [hxx]
    exact h2 x.2 o ho
  · rw [countVal_eq_zero.mpr hx, countVal_eq_zero]
    intro hmem
    apply hx
    obtain ⟨o, ho, hst⟩ := h1 x hmem
    rw [mem_regModel]
    refine ⟨(List.getElem?_eq_some.mp ho).1, ?_⟩
    unfold stageAt
    rw [ho]
    exact hst

/-- Counting a stage's bucket through the permutation. -/
theorem registry_countP {s : SchedState}
    (h1 : ∀ e ∈ s.registry, ∃ o, s.orders[e.2]? = some o ∧ e.1 = o.stage)
    (h2 : ∀ (i : Nat) (o : Order), s.orders[i]? = some o →
      countVal (o.stage, i) s.registry = 1)
    (st : Nat) :
    s.registry.countP (fun e => e.1 == st) =
      (List.range s.orders.length).countP (fun i => stageAt s i == st) := by
  rw [(registry_perm h1 h2).countP_eq]
  unfold regModel
  rw [List.countP_map]
  rfl

/-- The completion-log condition of `logIfDoneProcessingAll` holds exactly
when every order's stage is the Done code. -/
theorem doneBucket_full_iff {s : SchedState}
    (h1 : ∀ e ∈ s.registry, ∃ o, s.orders[e.2]? = some o ∧ e.1 = o.stage)
    (h2 : ∀ (i : Nat) (o : Order), s.orders[i]? = some o →
      countVal (o.stage, i) s.registry = 1) :
    (s.registry.countP (fun e => e.1 == StageTypes.DONE) = s.orders.length) ↔
      (∀ (i : Nat) (o : Order), s.orders[i]? = some o →
        o.stage = StageTypes.DONE) := by
  rw [registry_countP h1 h2]
  have hlen : (List.range s.orders.length).length = s.orders.length :=
    List.length_range _
  constructor
  · intro h i o ho
    have hall : ∀ i ∈ List.range s.orders.length,
        (stageAt s i == StageTypes.DONE) = true := by
      rw [← List.countP_eq_length]
      rw [h, hlen]
    have hi : i < s.orders.length := (List.getElem?_eq_some.mp ho).1
    have := hall i (List.mem_range.mpr hi)
    rw [show stageAt s i = o.stage by unfold stageAt; rw [ho]] at this
    exact beq_iff_eq.mp this
  · intro h
    have hall : ∀ i ∈ List.range s.orders.length,
        (stageAt s i == StageTypes.DONE) = true := by
      intro i hi
      obtain ⟨o, ho⟩ : ∃ o, s.orders[i]? = some o :=
        ⟨_, List.getElem?_eq_getElem (List.mem_range.mp hi)⟩
      rw [show stageAt s i = o.stage by unfold stageAt; rw [ho]]
      exact beq_iff_eq.mpr (h i o ho)
    rw [List.countP_eq_length.mpr hall, hlen]

/-- The invariant holds in every startup state. -/
theorem inv_init (n : Nat) (tops : Nat → Nat) : Inv (initState n tops) := by
  constructor
  · simp [initState]
  · rfl
  · intro e he
    obtain ⟨i, hi, rfl⟩ := List.mem_map.mp he
    refine ⟨{ id := i + 1, toppingsCount := tops (i + 1),
              stage := StageTypes.DOUGHCHEF, ready := true }, ?_, rfl⟩
    show (initState n tops).orders[i]? = _
    unfold initState
    dsimp only
    rw [List.getElem?_map, List.getElem?_range (List.mem_range.mp hi)]
    rfl
  · intro i o ho
    unfold initState at ho ⊢
    dsimp only at ho ⊢
    rw [List.getElem?_map] at ho
    cases hr : (List.range n)[i]? with
    | none => rw [hr] at ho; cases ho
    | some j =>
      rw [hr] at ho
      obtain ⟨hlt, he⟩ := List.getElem?_eq_some.mp hr
      have hj : j = i := by
        rw [← he]
        simp
      cases ho
      subst hj
      have hi : j < n := by simpa using hlt
      apply countVal_eq_one_of_nodup_mem
      · refine List.Nodup.map ?_ (List.nodup_range _)
        intro a b h
        exact congrArg Prod.snd h
      · exact List.mem_map.mpr ⟨j, List.mem_range.mpr hi, rfl⟩
  · exact List.Pairwise.nil
  · exact List.Pairwise.nil
  · intro t ht
    cases ht
  · exact Nat.zero_le 1
  · constructor
    · intro h
      cases h
    · rintro ⟨hn, hall⟩
      have hn2 : 0 < n := by
        have := hn
        unfold initState at this
        simpa using this
      have h0 : (initState n tops).orders[0]? =
          some { id := 1, toppingsCount := tops 1,
                 stage := StageTypes.DOUGHCHEF, ready := true } := by
        unfold initState
        dsimp only
        rw [List.getElem?_map, List.getElem?_range hn2]
        rfl
      have := hall 0 _ h0
      cases this

/-- Every prep stage's stage code has a strict successor and is never the
Done code, and that successor is one of the five startup bucket keys. -/
theorem getNextStage_of_prepStage (p : Prep) :
    ∃ st2, getNextStage p.getStage = some st2 ∧ st2 ≠ p.getStage ∧
      p.getStage ≠ StageTypes.DONE ∧
      st2 ∈ [StageTypes.DOUGHCHEF, StageTypes.TOPPINGCHEF, StageTypes.OVEN,
        StageTypes.WAITER, StageTypes.DONE] := by
  have hs : p.getStage = (getConfig p.cls).stageType := rfl
  cases hc : p.cls with
  | doughChef =>
    exact ⟨StageTypes.TOPPINGCHEF, by rw [hs, hc]; decide, by rw [hs, hc]; decide,
      by rw [hs, hc]; decide, by decide⟩
  | toppingChef =>
    exact ⟨StageTypes.OVEN, by rw [hs, hc]; decide, by rw [hs, hc]; decide,
      by rw [hs, hc]; decide, by decide⟩
  | oven =>
    exact ⟨StageTypes.WAITER, by rw [hs, hc]; decide, by rw [hs, hc]; decide,
      by rw [hs, hc]; decide, by decide⟩
  | waiter =>
    exact ⟨StageTypes.DONE, by rw [hs, hc]; decide, by rw [hs, hc]; decide,
      by rw [hs, hc]; decide, by decide⟩

/-- A `prepEnable` step preserves the invariant. -/
theorem inv_prepEnable {s : SchedState} (h : Inv s) (pj : Nat)
    (hguard : ∀ t ∈ s.timers, t.2 ≠ pj) : Inv (prepEnableStep s pj) := by
  unfold prepEnableStep
  split
  · exact h
  · rename_i p hpj
    constructor
    · exact h.sizeEq
    · exact h.keysEq
    · exact h.regMem
    · exact h.regCount
    · exact h.timersFst
    · exact h.timersSnd
    · intro t ht
      obtain ⟨o2, p2, ho2, hp2, c1, c2, c3⟩ := h.timersMem t ht
      refine ⟨o2, p2, ho2, ?_, c1, c2, c3⟩
      show (s.preps.set pj _)[t.2]? = some p2
      rw [List.getElem?_set_ne (fun hh => hguard t ht hh.symm)]
      exact hp2
    · exact h.logLe
    · exact h.logIff

/-- An `attempt` step preserves the invariant. -/
theorem inv_attempt {s : SchedState} (h : Inv s) (oi pj : Nat) :
    Inv (attemptToProcess s oi pj).2 := by
  rcases attemptToProcess_spec s oi pj with heq | heq
  · rw [heq]; exact h
  obtain ⟨o, p, ho, hp, hor, hpr, hst, htime, heq⟩ := heq
  rw [heq]
  have hoi : oi < s.orders.length := (List.getElem?_eq_some.mp ho).1
  have hpj : pj < s.preps.length := (List.getElem?_eq_some.mp hp).1
  have hofree : ∀ t ∈ s.timers, t.1 ≠ oi := by
    intro t ht hc
    obtain ⟨o2, p2, ho2, _, hor2, _, _⟩ := h.timersMem t ht
    rw [hc, ho] at ho2
    cases ho2
    rw [hor] at hor2
    cases hor2
  have hpfree : ∀ t ∈ s.timers, t.2 ≠ pj := by
    intro t ht hc
    obtain ⟨o2, p2, _, hp2, _, hpr2, _⟩ := h.timersMem t ht
    rw [hc, hp] at hp2
    cases hp2
    rw [hpr] at hpr2
    cases hpr2
  constructor
  · show s.ordersSize = (s.orders.set oi _).length
    rw [List.length_set]
    exact h.sizeEq
  · exact h.keysEq
  · intro e he
    obtain ⟨o2, ho2, hst2⟩ := h.regMem e he
    by_cases hcase : e.2 = oi
    · rw [hcase] at ho2 ⊢
      rw [ho] at ho2
      cases ho2
      exact ⟨{ o with ready := false },
        by rw [List.getElem?_set_self hoi], hst2⟩
    · refine ⟨o2, ?_, hst2⟩
      show (s.orders.set oi _)[e.2]? = some o2
      rw [List.getElem?_set_ne (fun hh => hcase hh.symm)]
      exact ho2
  · intro i o2 ho2
    by_cases hcase : i = oi
    · subst hcase
      rw [List.getElem?_set_self hoi] at ho2
      cases ho2
      exact h.regCount i o ho
    · rw [List.getElem?_set_ne (fun hh => hcase hh.symm)] at ho2
      exact h.regCount i o2 ho2
  · show ((s.timers ++ [(oi, pj)]).map Prod.fst).Nodup
    rw [List.map_append]
    refine List.Nodup.append h.timersFst (by simp) ?_
    intro a ha hmem
    have : a = oi := by simpa using hmem
    subst this
    obtain ⟨t, ht, hfst⟩ := List.mem_map.mp ha
    exact hofree t ht hfst
  · show ((s.timers ++ [(oi, pj)]).map Prod.snd).Nodup
    rw [List.map_append]
    refine List.Nodup.append h.timersSnd (by simp) ?_
    intro a ha hmem
    have : a = pj := by simpa using hmem
    subst this
    obtain ⟨t, ht, hsnd⟩ := List.mem_map.mp ha
    exact hpfree t ht hsnd
  · intro t ht
    rcases List.mem_append.mp ht with ht | ht
    · obtain ⟨o2, p2, ho2, hp2, c1, c2, c3⟩ := h.timersMem t ht
      refine ⟨o2, p2, ?_, ?_, c1, c2, c3⟩
      · show (s.orders.set oi _)[t.1]? = some o2
        rw [List.getElem?_set_ne (fun hh => hofree t ht hh.symm)]
        exact ho2
      · show (s.preps.set pj _)[t.2]? = some p2
        rw [List.getElem?_set_ne (fun hh => hpfree t ht hh.symm)]
        exact hp2
    · have : t = (oi, pj) := by simpa using ht
      subst this
      exact ⟨{ o with ready := false }, { p with ready := false },
        by rw [List.getElem?_set_self hoi],
        by rw [List.getElem?_set_self hpj], rfl, rfl, hst⟩
  · exact h.logLe
  · have hiff : (∀ (i : Nat) (o2 : Order),
        (s.orders.set oi { o with ready := false })[i]? = some o2 →
          o2.stage = StageTypes.DONE) ↔
      (∀ (i : Nat) (o2 : Order), s.orders[i]? = some o2 →
        o2.stage = StageTypes.DONE) := by
      constructor
      · intro hall i o2 ho2
        by_cases hcase : i = oi
        · subst hcase
          rw [ho] at ho2
          cases ho2
          exact hall i { o with ready := false }
            (by rw [List.getElem?_set_self hoi])
        · exact hall i o2 (by
            rw [List.getElem?_set_ne (fun hh => hcase hh.symm)]
            exact ho2)
      · intro hall i o2 ho2
        by_cases hcase : i = oi
        · subst hcase
          rw [List.getElem?_set_self hoi] at ho2
          cases ho2
          exact hall i o ho
        · rw [List.getElem?_set_ne (fun hh => hcase hh.symm)] at ho2
          exact hall i o2 ho2
    dsimp only
    rw [List.length_set, hiff]
    exact h.logIff

theorem countVal_singleton_self {α : Type} [DecidableEq α] (x : α) :
    countVal x [x] = 1 := by
  simp [countVal]

/-- `moveOrder` on a state whose order is present and whose target bucket
key exists: the prior-stage entry is deleted, the new entry appended, and the
completion check runs. -/
theorem moveOrder_eq {s : SchedState} {oi priorStage : Nat} {o : Order}
    (ho : s.orders[oi]? = some o) (hkeys : o.stage ∈ s.bucketKeys) :
    moveOrder s oi priorStage =
      logIfDoneProcessingAll
        { s with registry :=
            s.registry.filter (fun e => !(e.1 == priorStage && e.2 == oi))
              ++ [(o.stage, oi)] } := by
  unfold moveOrder
  rw [ho]
  dsimp only
  rw [if_pos hkeys]

/-- `logIfDoneProcessingAll` preserves the invariant, given its structural
clauses for the input state, a zero log count, and at least one order. -/
theorem inv_logIfDone {s2 : SchedState}
    (hsize : s2.ordersSize = s2.orders.length)
    (hkeys : s2.bucketKeys =
      [StageTypes.DOUGHCHEF, StageTypes.TOPPINGCHEF, StageTypes.OVEN,
        StageTypes.WAITER, StageTypes.DONE])
    (hregMem : ∀ e ∈ s2.registry, ∃ o, s2.orders[e.2]? = some o ∧ e.1 = o.stage)
    (hregCount : ∀ (i : Nat) (o : Order), s2.orders[i]? = some o →
      countVal (o.stage, i) s2.registry = 1)
    (hfst : (s2.timers.map Prod.fst).Nodup)
    (hsnd : (s2.timers.map Prod.snd).Nodup)
    (htm : ∀ t ∈ s2.timers, ∃ o p, s2.orders[t.1]? = some o ∧
      s2.preps[t.2]? = some p ∧ o.ready = false ∧ p.ready = false ∧
      o.stage = p.getStage)
    (hlog0 : s2.doneLogCount = 0)
    (hpos : 0 < s2.orders.length) :
    Inv (logIfDoneProcessingAll s2) := by
  unfold logIfDoneProcessingAll
  by_cases hC : s2.registry.countP (fun e => e.1 == StageTypes.DONE) = s2.ordersSize
  · rw [if_pos hC]
    have hall : ∀ (i : Nat) (o : Order), s2.orders[i]? = some o →
        o.stage = StageTypes.DONE := by
      apply (doneBucket_full_iff hregMem hregCount).mp
      rw [hC, hsize]
    exact ⟨hsize, hkeys, hregMem, hregCount, hfst, hsnd, htm,
      by dsimp only; omega,
      by dsimp only; rw [hlog0]; exact iff_of_true rfl ⟨hpos, hall⟩⟩
  · rw [if_neg hC]
    refine ⟨hsize, hkeys, hregMem, hregCount, hfst, hsnd, htm,
      by rw [hlog0]; exact Nat.zero_le 1, ?_⟩
    rw [hlog0]
    apply iff_of_false (by omega)
    rintro ⟨-, hall⟩
    apply hC
    rw [hsize]
    exact (doneBucket_full_iff hregMem hregCount).mpr hall

/-- A `fireOrder` step preserves the invariant. -/
theorem inv_fireOrder {s : SchedState} (h : Inv s) (t : Nat × Nat)
    (ht : t ∈ s.timers) : Inv (fireOrderStep s t) := by
  obtain ⟨o, p, ho, hp, hor, hpr, hst⟩ := h.timersMem t ht
  obtain ⟨st2, hnext, hne, hnotdone, hmem5⟩ := getNextStage_of_prepStage p
  have hlt : t.1 < s.orders.length := (List.getElem?_eq_some.mp ho).1
  have hnext2 : getNextStage o.stage = some st2 := by rw [hst]; exact hnext
  have hne2 : st2 ≠ o.stage := by rw [hst]; exact hne
  have hnotdone2 : o.stage ≠ StageTypes.DONE := by rw [hst]; exact hnotdone
  have htnodup : s.timers.Nodup := List.Nodup.of_map _ h.timersFst
  have hfire : fireOrderStep s t =
      moveOrder
        { s with
          timers := s.timers.erase t,
          orders := s.orders.set t.1 { o with stage := st2, ready := true } }
        t.1 o.stage := by
    unfold fireOrderStep
    rw [ho]
    dsimp only
    rw [hnext2]
  rw [hfire]
  rw [moveOrder_eq (by dsimp only; rw [List.getElem?_set_self hlt])
    (by dsimp only; rw [h.keysEq]; exact hmem5)]
  dsimp only
  apply inv_logIfDone
  · dsimp only
    rw [List.length_set]
    exact h.sizeEq
  · exact h.keysEq
  · -- registry membership clause for the moved registry
    intro e he
    rcases List.mem_append.mp he with hef | hes
    · have hkeep := (List.mem_filter.mp hef).2
      have hereg := (List.mem_filter.mp hef).1
      obtain ⟨o3, ho3, hst3⟩ := h.regMem e hereg
      by_cases hcase : e.2 = t.1
      · exfalso
        rw [hcase, ho] at ho3
        cases ho3
        rw [hst3, hcase] at hkeep
        simp at hkeep
      · refine ⟨o3, ?_, hst3⟩
        dsimp only
        rw [List.getElem?_set_ne (fun hh => hcase hh.symm)]
        exact ho3
    · have : e = (st2, t.1) := by simpa using hes
      subst this
      refine ⟨{ o with stage := st2, ready := true }, ?_, rfl⟩
      dsimp only
      rw [List.getElem?_set_self hlt]
  · -- registry count clause for the moved registry
    have hnotin : ((st2 : Nat), t.1) ∉ s.registry := by
      intro hmem
      obtain ⟨o3, ho3, hst3⟩ := h.regMem _ hmem
      dsimp only at ho3 hst3
      rw [ho] at ho3
      cases ho3
      exact hne2 hst3
    intro i o3 ho3
    dsimp only at ho3 ⊢
    by_cases hcase : i = t.1
    · subst hcase
      rw [List.getElem?_set_self hlt] at ho3
      cases ho3
      show countVal (st2, t.1) _ = 1
      rw [countVal_append, countVal_filter]
      have hkeepx : (!(st2 == o.stage && t.1 == t.1)) = true := by
        simp [hne2]
      rw [if_pos hkeepx, countVal_eq_zero.mpr hnotin,
        countVal_singleton_self]
    · rw [List.getElem?_set_ne (fun hh => hcase hh.symm)] at ho3
      rw [countVal_append, countVal_filter]
      have hkeepx : (!(o3.stage == o.stage && i == t.1)) = true := by
        simp [hcase]
      rw [if_pos hkeepx, h.regCount i o3 ho3]
      rw [countVal_eq_zero.mpr (by
        intro hmem
        exact hcase (congrArg Prod.snd (List.mem_singleton.mp hmem)))]
  · exact List.Nodup.sublist
      (List.Sublist.map Prod.fst (List.erase_sublist t s.timers)) h.timersFst
  · exact List.Nodup.sublist
      (List.Sublist.map Prod.snd (List.erase_sublist t s.timers)) h.timersSnd
  · -- remaining timers clause
    intro t2 ht2
    dsimp only at ht2
    obtain ⟨hne3, hmem3⟩ := (htnodup.mem_erase_iff).mp ht2
    obtain ⟨o3, p3, ho3, hp3, c1, c2, c3⟩ := h.timersMem t2 hmem3
    have hfst3 : t2.1 ≠ t.1 := by
      intro hh
      exact hne3 (List.inj_on_of_nodup_map h.timersFst hmem3 ht hh)
    refine ⟨o3, p3, ?_, hp3, c1, c2, c3⟩
    dsimp only
    rw [List.getElem?_set_ne (fun hh => hfst3 hh.symm)]
    exact ho3
  · -- the completion log had not yet fired
    dsimp only
    rcases Nat.lt_or_ge s.doneLogCount 1 with hl | hg
    · omega
    · exfalso
      obtain ⟨-, hall⟩ := h.logIff.mp (Nat.le_antisymm h.logLe hg)
      exact hnotdone2 (hall t.1 o ho)
  · dsimp only
    rw [List.length_set]
    exact Nat.lt_of_le_of_lt (Nat.zero_le _) hlt

/-- C8: a single invocation of `freeStageListener` or of `freeOrderListener`
starts at most one pairing: the scan leaves the pending-timer list unchanged
or appends exactly one timer involving the freed party, because the first
successful `attemptToProcess` marks that party busy, after which every later
attempt of the same scan fails its eligibility re-check and is a no-op. -/
theorem claimC8 (s : SchedState) (pj oi : Nat) :
    ((freeStageListener s pj).timers = s.timers ∨
      ∃ oi2, (freeStageListener s pj).timers = s.timers ++ [(oi2, pj)]) ∧
    ((freeOrderListener s oi).timers = s.timers ∨
      ∃ pj2, (freeOrderListener s oi).timers = s.timers ++ [(oi, pj2)]) := by
  constructor
  · unfold freeStageListener
    split
    · exact Or.inl rfl
    · exact attemptOrdersLoop_timers pj _ s
  · unfold freeOrderListener
    split
    · exact Or.inl rfl
    · split
      · exact Or.inl rfl
      · exact attemptPrepsLoop_timers oi _ s

/-- C2: the stage successor function maps dough to topping, topping to oven,
oven to waiter (this transition succeeds, it does not fall into the error
branch), waiter to Done, and signals an error (`none`) on every other input,
the Done code included. -/
theorem claimC2 (n : Nat)
    (h1 : n ≠ StageTypes.DOUGHCHEF) (h2 : n ≠ StageTypes.TOPPINGCHEF)
    (h3 : n ≠ StageTypes.OVEN) (h4 : n ≠ StageTypes.WAITER) :
    getNextStage StageTypes.DOUGHCHEF = some StageTypes.TOPPINGCHEF ∧
    getNextStage StageTypes.TOPPINGCHEF = some StageTypes.OVEN ∧
    getNextStage StageTypes.OVEN = some StageTypes.WAITER ∧
    getNextStage StageTypes.WAITER = some StageTypes.DONE ∧
    getNextStage n = none := by
  refine ⟨by decide, by decide, by decide, by decide, ?_⟩
  unfold getNextStage
  rw [if_neg h1, if_neg h2, if_neg h3, if_neg h4]

/-- Witness for C2 at the Done code: the four forward transitions succeed and
`getNextStage` rejects `DONE`. -/
theorem claimC2_witness :
    getNextStage StageTypes.DOUGHCHEF = some StageTypes.TOPPINGCHEF ∧
    getNextStage StageTypes.TOPPINGCHEF = some StageTypes.OVEN ∧
    getNextStage StageTypes.OVEN = some StageTypes.WAITER ∧
    getNextStage StageTypes.WAITER = some StageTypes.DONE ∧
    getNextStage StageTypes.DONE = none :=
  claimC2 StageTypes.DONE (by decide) (by decide) (by decide) (by decide)

/-- C5: at the topping stage the computed duration is the ceiling of the
configured base duration times the topping count divided by two, and at every
other stage the duration is exactly the stage's configured base duration,
independent of the order. -/
theorem claimC5 (o o2 : Order) (c : PrepClass) (h : c ≠ PrepClass.toppingChef) :
    calculateProcessingTime PrepClass.toppingChef o
        = ((getConfig PrepClass.toppingChef).msToPrep * o.toppingsCount + 1) / 2 ∧
    calculateProcessingTime c o = (getConfig c).msToPrep ∧
    calculateProcessingTime c o = calculateProcessingTime c o2 := by
  refine ⟨?_, ?_, ?_⟩
  · show mathCeilHalf ((getConfig PrepClass.toppingChef).msToPrep * o.toppingsCount) = _
    unfold mathCeilHalf
    split <;> omega
  · cases c with
    | toppingChef => exact absurd rfl h
    | doughChef => rfl
    | oven => rfl
    | waiter => rfl
  · cases c with
    | toppingChef => exact absurd rfl h
    | doughChef => rfl
    | oven => rfl
    | waiter => rfl

/-- Witness for C5 at a 5-topping order and the oven stage. -/
theorem claimC5_witness :
    calculateProcessingTime PrepClass.toppingChef
        { id := 1, toppingsCount := 5, stage := StageTypes.TOPPINGCHEF, ready := true }
      = ((getConfig PrepClass.toppingChef).msToPrep * 5 + 1) / 2 ∧
    calculateProcessingTime PrepClass.oven
        { id := 1, toppingsCount := 5, stage := StageTypes.TOPPINGCHEF, ready := true }
      = (getConfig PrepClass.oven).msToPrep ∧
    calculateProcessingTime PrepClass.oven
        { id := 1, toppingsCount := 5, stage := StageTypes.TOPPINGCHEF, ready := true }
      = calculateProcessingTime PrepClass.oven
          { id := 2, toppingsCount := 9, stage := StageTypes.OVEN, ready := false } :=
  claimC5 _ _ PrepClass.oven (by decide)

/-- C10: every stage configuration stores `secondsToPrep * 1000` in
`msToPrep`, the four concrete configurations hold 7000, 4000, 10000 and 5000,
and consequently every scheduled duration is 1000 times the corresponding
time-unit value of the specification (the dough stage schedules 7000, and the
topping stage schedules 1000 times the unit-level `ceil(4 * toppings / 2)`). -/
theorem claimC10 (st sec : Nat) (o : Order) :
    (mkPrepConfig st sec).msToPrep = sec * 1000 ∧
    doughChefConfig.msToPrep = 7 * 1000 ∧
    toppingChefConfig.msToPrep = 4 * 1000 ∧
    ovenConfig.msToPrep = 10 * 1000 ∧
    waiterConfig.msToPrep = 5 * 1000 ∧
    calculateProcessingTime PrepClass.doughChef o = 7 * 1000 ∧
    calculateProcessingTime PrepClass.oven o = 10 * 1000 ∧
    calculateProcessingTime PrepClass.waiter o = 5 * 1000 ∧
    calculateProcessingTime PrepClass.toppingChef o
        = 1000 * mathCeilHalf (4 * o.toppingsCount) := by
  refine ⟨rfl, rfl, rfl, rfl, rfl, rfl, rfl, rfl, ?_⟩
  show mathCeilHalf (4 * 1000 * o.toppingsCount) = 1000 * mathCeilHalf (4 * o.toppingsCount)
  unfold mathCeilHalf
  split <;> split <;> omega

/-- C6: whenever the computed duration of a pair is zero (a zero-topping
order offered to a topping chef), `attemptToProcess` reports "not started"
and performs no side effect at all: the state is unchanged, so no timer is
scheduled and neither party acquires a busy mark. -/
theorem claimC6 (s : SchedState) (oi pj : Nat) (o : Order) (p : Prep)
    (ho : s.orders[oi]? = some o) (hp : s.preps[pj]? = some p)
    (h0 : calculateProcessingTime p.cls o = 0) :
    attemptToProcess s oi pj = (false, s) ∧
    (attemptToProcess s oi pj).2.timers = s.timers ∧
    orderReady (attemptToProcess s oi pj).2 oi = orderReady s oi ∧
    prepReady (attemptToProcess s oi pj).2 pj = prepReady s pj := by
  have main : attemptToProcess s oi pj = (false, s) := by
    unfold attemptToProcess
    rw [ho, hp]
    dsimp only
    by_cases hc : (o.ready && p.ready && (o.stage == p.getStage)) = true
    · rw [if_pos hc, if_pos (show (calculateProcessingTime p.cls o == 0) = true by rw [h0]; rfl)]
    · rw [if_neg hc]
  exact ⟨main, by rw [main], by rw [main], by rw [main]⟩

/-- Witness for C6: a free zero-topping order at the topping stage offered to
a free topping chef is rejected with the state unchanged. -/
theorem claimC6_witness :
    attemptToProcess zeroToppingsEx 0 0 = (false, zeroToppingsEx) ∧
    (attemptToProcess zeroToppingsEx 0 0).2.timers = zeroToppingsEx.timers ∧
    orderReady (attemptToProcess zeroToppingsEx 0 0).2 0 = orderReady zeroToppingsEx 0 ∧
    prepReady (attemptToProcess zeroToppingsEx 0 0).2 0 = prepReady zeroToppingsEx 0 :=
  claimC6 zeroToppingsEx 0 0
    { id := 1, toppingsCount := 0, stage := StageTypes.TOPPINGCHEF, ready := true }
    { id := 1, cls := PrepClass.toppingChef, ready := true }
    (by decide) (by decide) (by decide)

/-- C9 (behaviour at a failing input): on the one-order startup state the
seeding attempt is eligible and does start the pairing, appending the timer
for the pair and marking the order and the dough chef busy, yet the call
returns `false` to its caller, because in the source the `return true` sits
inside the `setTimeout` callback and the surrounding `async` function falls
through, resolving to the falsy `undefined`; the scan loops of the listeners
therefore never observe a truthy "started" result. -/
theorem claimC9 :
    attemptToProcess initEx 0 0 = (false, pairedEx) ∧
    initEx.timers = [] ∧
    pairedEx.timers = [(0, 0)] ∧
    orderReady initEx 0 = true ∧ prepReady initEx 0 = true ∧
    orderReady pairedEx 0 = false ∧ prepReady pairedEx 0 = false := by
  refine ⟨?_, rfl, by decide, by decide, by decide, by decide, by decide⟩
  have h1 : (attemptToProcess initEx 0 0).1 = false := attemptToProcess_fst_false _ _ _
  have h2 : (attemptToProcess initEx 0 0).2 = pairedEx := rfl
  calc attemptToProcess initEx 0 0
      = ((attemptToProcess initEx 0 0).1, (attemptToProcess initEx 0 0).2) := rfl
    _ = (false, pairedEx) := by rw [h1, h2]

/-- Every step preserves the invariant. -/
theorem inv_step {s s2 : SchedState} (h : Inv s) (hs : Step s s2) : Inv s2 := by
  cases hs with
  | attempt oi pj => exact inv_attempt h oi pj
  | fireOrder t ht => exact inv_fireOrder h t ht
  | prepEnable pj hguard => exact inv_prepEnable h pj hguard

/-- Every reachable state satisfies the invariant. -/
theorem inv_reachable {s : SchedState} (h : Reachable s) : Inv s := by
  obtain ⟨n, tops, hr⟩ := h
  induction hr with
  | refl => exact inv_init n tops
  | tail _ hstep ih => exact inv_step ih hstep

theorem logIfDoneProcessingAll_mono (s2 : SchedState) {n : Nat}
    (hn : s2.doneLogCount = n) :
    n ≤ (logIfDoneProcessingAll s2).doneLogCount := by
  unfold logIfDoneProcessingAll
  split
  · dsimp only
    omega
  · exact Nat.le_of_eq hn.symm

theorem moveOrder_mono (s2 : SchedState) (oi priorStage : Nat) {n : Nat}
    (hn : s2.doneLogCount = n) :
    n ≤ (moveOrder s2 oi priorStage).doneLogCount := by
  unfold moveOrder
  split
  · exact Nat.le_of_eq hn.symm
  · exact logIfDoneProcessingAll_mono _ hn

/-- No step ever decreases the completion-log emission count. -/
theorem step_log_mono {s s2 : SchedState} (hs : Step s s2) :
    s.doneLogCount ≤ s2.doneLogCount := by
  cases hs with
  | attempt oi pj =>
    rcases attemptToProcess_spec s oi pj with heq | heq
    · rw [heq]
    · obtain ⟨o, p, _, _, _, _, _, _, heq⟩ := heq
      rw [heq]
  | fireOrder t ht =>
    unfold fireOrderStep
    split
    · exact Nat.le_refl _
    · split
      · exact Nat.le_refl _
      · exact moveOrder_mono _ _ _ rfl
  | prepEnable pj hguard =>
    unfold prepEnableStep
    split
    · exact Nat.le_refl _
    · exact Nat.le_refl _

/-- C1: in every reachable state the pending pairings are mutually exclusive
per party — no order position and no prep-stage position occurs in two
pending timers — and while a party is in a pending pairing every further
`attemptToProcess` involving it fails its eligibility re-check and leaves the
state unchanged, until the completion callback frees that party. -/
theorem claimC1 (s : SchedState) (oi pj : Nat) (hs : Reachable s)
    (hbusy : (∃ t ∈ s.timers, t.1 = oi) ∨ (∃ t ∈ s.timers, t.2 = pj)) :
    (s.timers.map Prod.fst).Nodup ∧ (s.timers.map Prod.snd).Nodup ∧
    attemptToProcess s oi pj = (false, s) := by
  have h := inv_reachable hs
  refine ⟨h.timersFst, h.timersSnd, ?_⟩
  rcases hbusy with ⟨t, ht, h1⟩ | ⟨t, ht, h2⟩
  · obtain ⟨o, p2, ho, _, hor, _, _⟩ := h.timersMem t ht
    apply attemptToProcess_order_busy
    unfold orderReady
    rw [h1] at ho
    rw [ho]
    exact hor
  · obtain ⟨o, p2, _, hp, _, hpr, _⟩ := h.timersMem t ht
    apply attemptToProcess_prep_busy
    unfold prepReady
    rw [h2] at hp
    rw [hp]
    exact hpr

/-- Witness for C1 on the one-order run after its first pairing: the order
and the dough chef are each in exactly one pending pairing and a renewed
attempt on them is rejected without effect. -/
theorem claimC1_witness :
    (pairedEx.timers.map Prod.fst).Nodup ∧
    (pairedEx.timers.map Prod.snd).Nodup ∧
    attemptToProcess pairedEx 0 0 = (false, pairedEx) :=
  claimC1 pairedEx 0 0 reachable_pairedEx (Or.inl ⟨(0, 0), by decide, rfl⟩)

/-- C3: in every reachable state the Done bucket key exists, and every order
occupies exactly one registry-bucket entry, whose bucket is the order's
current stage. -/
theorem claimC3 (s : SchedState) (hs : Reachable s) (i : Nat) (o : Order)
    (ho : s.orders[i]? = some o) :
    StageTypes.DONE ∈ s.bucketKeys ∧
    s.registry.countP (fun e => e.2 == i) = 1 ∧
    ∀ e ∈ s.registry, e.2 = i → e.1 = o.stage := by
  have h := inv_reachable hs
  refine ⟨by rw [h.keysEq]; decide, ?_, ?_⟩
  · have hcong : s.registry.countP (fun e => e.2 == i) =
        s.registry.countP (fun e => decide (e = (o.stage, i))) := by
      apply List.countP_congr
      intro e he
      obtain ⟨o3, ho3, hst3⟩ := h.regMem e he
      simp only [beq_iff_eq, decide_eq_true_eq]
      constructor
      · intro hei
        rw [hei] at ho3
        rw [ho] at ho3
        cases ho3
        cases e
        dsimp only at hei hst3 ⊢
        rw [hei, hst3]
      · intro hee
        rw [hee]
    rw [hcong]
    exact h.regCount i o ho
  · intro e he hei
    obtain ⟨o3, ho3, hst3⟩ := h.regMem e he
    rw [hei, ho] at ho3
    cases ho3
    exact hst3

/-- Witness for C3 on the one-order startup state. -/
theorem claimC3_witness :
    StageTypes.DONE ∈ initEx.bucketKeys ∧
    initEx.registry.countP (fun e => e.2 == 0) = 1 ∧
    ∀ e ∈ initEx.registry, e.2 = 0 →
      e.1 = (Order.mk 1 3 StageTypes.DOUGHCHEF true).stage :=
  claimC3 initEx reachable_initEx 0 _ (by decide)

/-- C4: in every reachable state the global completion signal has been
emitted at most once; it has been emitted exactly when all created orders
have stage Done (so it fires exactly once in a completed run, and never in a
state where some order is still unfinished); when it has been emitted the
Done bucket count equals the total order count; and no further step ever
re-emits it. -/
theorem claimC4 (s s2 : SchedState) (hs : Reachable s) (hstep : Step s s2) :
    s.doneLogCount ≤ 1 ∧
    (s.doneLogCount = 1 ↔
      (0 < s.orders.length ∧ ∀ (i : Nat) (o : Order), s.orders[i]? = some o →
        o.stage = StageTypes.DONE)) ∧
    (s.doneLogCount = 1 →
      s.registry.countP (fun e => e.1 == StageTypes.DONE) = s.ordersSize) ∧
    (s.doneLogCount = 1 → s2.doneLogCount = 1) := by
  have h := inv_reachable hs
  have h2 := inv_step h hstep
  refine ⟨h.logLe, h.logIff, ?_, ?_⟩
  · intro h1
    obtain ⟨hpos, hall⟩ := h.logIff.mp h1
    rw [h.sizeEq]
    exact (doneBucket_full_iff h.regMem h.regCount).mpr hall
  · intro h1
    have hmono := step_log_mono hstep
    have hle := h2.logLe
    omega

/-- Witness for C4 on the one-order run and its first step. -/
theorem claimC4_witness :
    initEx.doneLogCount ≤ 1 ∧
    (initEx.doneLogCount = 1 ↔
      (0 < initEx.orders.length ∧
        ∀ (i : Nat) (o : Order), initEx.orders[i]? = some o →
          o.stage = StageTypes.DONE)) ∧
    (initEx.doneLogCount = 1 →
      initEx.registry.countP (fun e => e.1 == StageTypes.DONE) =
        initEx.ordersSize) ∧
    (initEx.doneLogCount = 1 → pairedEx.doneLogCount = 1) :=
  claimC4 initEx pairedEx reachable_initEx (Step.attempt initEx 0 0)

theorem logIfDoneProcessingAll_orders (s : SchedState) :
    (logIfDoneProcessingAll s).orders = s.orders := by
  unfold logIfDoneProcessingAll
  split <;> rfl

theorem logIfDoneProcessingAll_preps (s : SchedState) :
    (logIfDoneProcessingAll s).preps = s.preps := by
  unfold logIfDoneProcessingAll
  split <;> rfl

/-- Full normal form of a completion callback's first half on a valid timer. -/
theorem fireOrderStep_full {s : SchedState} {t : Nat × Nat} {o : Order}
    {st2 : Nat} (ho : s.orders[t.1]? = some o)
    (hnext2 : getNextStage o.stage = some st2) (hkeys : st2 ∈ s.bucketKeys) :
    fireOrderStep s t =
      logIfDoneProcessingAll
        { s with
          timers := s.timers.erase t,
          orders := s.orders.set t.1 { o with stage := st2, ready := true },
          registry :=
            s.registry.filter (fun e => !(e.1 == o.stage && e.2 == t.1))
              ++ [(st2, t.1)] } := by
  have hlt : t.1 < s.orders.length := (List.getElem?_eq_some.mp ho).1
  have h1 : fireOrderStep s t =
      moveOrder
        { s with
          timers := s.timers.erase t,
          orders := s.orders.set t.1 { o with stage := st2, ready := true } }
        t.1 o.stage := by
    unfold fireOrderStep
    rw [ho]
    dsimp only
    rw [hnext2]
  rw [h1, moveOrder_eq (by dsimp only; rw [List.getElem?_set_self hlt])
    (by dsimp only; exact hkeys)]

/-- The statement of C7 as written: when a completion timer fires, both the
order and the prep stage are already marked ready in the state in which the
item-freed trigger's scan begins. -/
def claimC7Statement : Prop :=
  ∀ s : SchedState, Reachable s → ∀ t ∈ s.timers,
    orderReady (fireOrderStep s t) t.1 = true ∧
    prepReady (fireOrderStep s t) t.2 = true

/-- C7 fails on the code: on the one-order run, when the pairing's timer
fires, `Order.postProcess` marks the order ready and emits `FREEORDER` before
`PrepStage.postProcess` runs, so the item-freed scan begins while the dough
chef is still marked busy. -/
theorem claimC7_counterexample : ¬claimC7Statement := by
  intro hclaim
  have h := hclaim pairedEx reachable_pairedEx (0, 0) (by decide)
  exact absurd h.2 (by decide)

/-- C7 as amended: when a completion timer fires, the order is marked ready
in the state in which the item-freed trigger's scan begins, but the prep
stage is still busy there; the prep stage is marked ready in the state in
which the worker-freed trigger's scan begins. -/
theorem claimC7_amended (s : SchedState) (t : Nat × Nat) (hs : Reachable s)
    (ht : t ∈ s.timers) :
    orderReady (fireOrderStep s t) t.1 = true ∧
    prepReady (fireOrderStep s t) t.2 = false ∧
    prepReady (prepEnableStep (fireOrderStep s t) t.2) t.2 = true := by
  have h := inv_reachable hs
  obtain ⟨o, p, ho, hp, hor, hpr, hst⟩ := h.timersMem t ht
  obtain ⟨st2, hnext, hne, hnotdone, hmem5⟩ := getNextStage_of_prepStage p
  have hlt : t.1 < s.orders.length := (List.getElem?_eq_some.mp ho).1
  have hplt : t.2 < s.preps.length := (List.getElem?_eq_some.mp hp).1
  have hnext2 : getNextStage o.stage = some st2 := by rw [hst]; exact hnext
  have hfull := fireOrderStep_full ho hnext2 (by rw [h.keysEq]; exact hmem5)
  have horders : (fireOrderStep s t).orders =
      s.orders.set t.1 { o with stage := st2, ready := true } := by
    rw [hfull, logIfDoneProcessingAll_orders]
  have hpreps : (fireOrderStep s t).preps = s.preps := by
    rw [hfull, logIfDoneProcessingAll_preps]
  refine ⟨?_, ?_, ?_⟩
  · unfold orderReady
    rw [horders, List.getElem?_set_self hlt]
  · unfold prepReady
    rw [hpreps, hp]
    exact hpr
  · have hopt : (fireOrderStep s t).preps[t.2]? = some p := by
      rw [hpreps]
      exact hp
    unfold prepEnableStep
    rw [hopt]
    dsimp only
    unfold prepReady
    dsimp only
    rw [hpreps, List.getElem?_set_self hplt]

/-- Witness for the amended C7 on the one-order run's pairing timer. -/
theorem claimC7_amended_witness :
    orderReady (fireOrderStep pairedEx (0, 0)) 0 = true ∧
    prepReady (fireOrderStep pairedEx (0, 0)) 0 = false ∧
    prepReady (prepEnableStep (fireOrderStep pairedEx (0, 0)) 0) 0 = true :=
  claimC7_amended pairedEx (0, 0) reachable_pairedEx (by decide)

end PizzaSched
